import Mathlib

/-!
# Verification of the blazer `b2` upload engine

A shallow embedding of the upload engine of the `b2` package
(`writer.go`, here `src/unnamed/part_001`, and `src/b2/buffer.go`).

Machine integers are modelled by `Nat` (byte counts and part ids are
non-negative and nowhere near overflow in the source), byte streams by
`List Nat`, and the SHA-1 digest by an abstract parameter
`h : List Nat → List Nat` (the digest comes from the external
`crypto/sha1` library; theorems that need it assume its output is a list
of 20 bytes).  Fallible or potentially non-terminating loops take fuel
and return `Option`.

The concurrent part of the engine (one producer, `ConcurrentUploads`
worker goroutines, a zero-capacity rendezvous channel) is modelled by
its sequential semantics at `ConcurrentUploads = 1`: a dispatch on the
rendezvous channel synchronises with the single worker, which finishes
handling the chunk before it can receive the next one, so delivery and
processing interleave deterministically.
-/

namespace Blazer

/-- Abstract error values of the engine.  `ctxCanceled` is the error of a
cancelled context, `resumeMismatch` the error built at writer.go:157,
`writeNotSupported` the error of `nonBuffer.Write` (buffer.go:62), and
`other n` stands for arbitrary backend errors. -/
inductive BErr where
  | ctxCanceled
  | resumeMismatch
  | uploadFailed
  | writeNotSupported
  | other (n : Nat)
deriving DecidableEq

/-- State of a `Writer` as far as byte accounting is concerned:
the resolved chunk size `csize`, the fill level `bufLen` of the active
buffer `w.w`, the dispatch counter `cidx`, the chunks sent on the
`ready` channel so far (as `(id, size)` pairs, in dispatch order), the
error latch `err` with its cancellation flag, and `everStarted`. -/
structure WSt where
  csize : Nat
  bufLen : Nat
  cidx : Nat
  sent : List (Nat × Nat)
  err : Option BErr
  canceled : Bool
  everStarted : Bool
deriving DecidableEq

/-- `Writer.setErr` (writer.go:107-118): a nil error is ignored; the
first non-nil error is stored and cancels the writer's context; later
calls observe a non-nil latch and change nothing. -/
def setErr (st : WSt) (e : Option BErr) : WSt :=
  match e with
  | none => st
  | some e0 => if st.err = none then { st with err := some e0, canceled := true } else st

/-- `Writer.sendChunk` (writer.go:364-399), success case: the chunk
`{id: cidx+1, buf: w.w}` is sent on `ready`, then `cidx` is incremented
and a fresh empty buffer is installed. -/
def sendChunk (st : WSt) : WSt :=
  { st with
    sent := st.sent ++ [(st.cidx + 1, st.bufLen)]
    cidx := st.cidx + 1
    bufLen := 0 }

/-- The recursion of `Writer.Write` (writer.go:227-250) on the byte
count of `p`: with `left := csize - bufLen`, a short write is buffered;
otherwise the buffer is filled to exactly `csize`, a chunk is
dispatched, and the remainder is written recursively.  Fuel bounds the
recursion (the source would loop forever if `bufLen` ever reached
`csize` outside a call); the result is the pair (bytes accepted, new
state). -/
def writeLoop : Nat → WSt → Nat → Option (Nat × WSt)
  | 0, _, _ => none
  | fuel + 1, st, c =>
    let left := st.csize - st.bufLen
    if c < left then
      some (c, { st with bufLen := st.bufLen + c })
    else
      match writeLoop fuel (sendChunk { st with bufLen := st.csize }) (c - left) with
      | none => none
      | some (k, st2) => some (left + k, st2)

/-- `Writer.Write`: runs `init` (setting `everStarted`), returns
`(0, latched error)` doing no work when the latch is set, and otherwise
runs the buffering recursion.  The returned state carries the error
that `Write` returns. -/
def Write (fuel : Nat) (st : WSt) (c : Nat) : Option (Nat × WSt) :=
  let st := { st with everStarted := true }
  match st.err with
  | some _ => some (0, st)
  | none => writeLoop fuel st c

/-- A whole session of `Write` calls, one byte count per call. -/
def writeSeq (fuel : Nat) : WSt → List Nat → Option WSt
  | st, [] => some st
  | st, c :: cs =>
    match Write fuel st c with
    | none => none
    | some (_, st2) => writeSeq fuel st2 cs

/-- `Writer.init` (writer.go:206-224): `csize` is `ChunkSize`, defaulted
to `1e8` when the caller left it zero. -/
def initCsize (chunkSize : Nat) : Nat :=
  if chunkSize = 0 then 100000000 else chunkSize

/-- The writer state before the first `Write` call. -/
def initW (csize : Nat) : WSt :=
  { csize := csize, bufLen := 0, cidx := 0, sent := [], err := none,
    canceled := false, everStarted := false }

/-- Record of one `Writer.Close` call (writer.go:424-456): whether the
small-file path (`simpleWriteFile`) ran, the chunks dispatched by
`Close` itself, whether `finishLargeFile` was invoked, the final state,
and the error `Close` returns (`w.getErr()`). -/
structure CloseRec where
  smallPath : Bool
  finalSent : List (Nat × Nat)
  finishCalled : Bool
  st : WSt
  ret : Option BErr
deriving DecidableEq

/-- `Writer.Close` in the byte-accounting model.  `simpleRes` and
`finishRes` are the outcomes of the backend calls `simpleWriteFile` and
`finishLargeFile`.  If the writer never started, the body is skipped
and `getErr()` is returned.  With `cidx = 0` the small-file path runs
and its error is latched.  Otherwise a non-empty active buffer is
dispatched first — which fails with the context error when the latch
has already cancelled the context (the rendezvous send can then never
be matched) — and only after a successful drain is `finishLargeFile`
invoked. -/
def Close (st : WSt) (simpleRes finishRes : Option BErr) : CloseRec :=
  if st.everStarted = false then
    { smallPath := false, finalSent := [], finishCalled := false, st := st, ret := st.err }
  else if st.cidx = 0 then
    let st2 := setErr st simpleRes
    { smallPath := true, finalSent := [], finishCalled := false, st := st2, ret := st2.err }
  else if 0 < st.bufLen then
    if st.canceled then
      let st2 := setErr st (some .ctxCanceled)
      { smallPath := false, finalSent := [], finishCalled := false, st := st2, ret := st2.err }
    else
      let st2 := sendChunk st
      let st3 := setErr st2 finishRes
      { smallPath := false, finalSent := [(st.cidx + 1, st.bufLen)], finishCalled := true,
        st := st3, ret := st3.err }
  else
    let st2 := setErr st finishRes
    { smallPath := false, finalSent := [], finishCalled := true, st := st2, ret := st2.err }

/-! ## Resume session (writer.go:140-204, 364-399, 424-456)

Sequential model of a promoted large-file upload with one worker.  A
chunk is identified by its SHA-1 hash (abstracted to a `Nat`); `seen`
is the map built by `getLargeFile` from the parts already on the
server.  `uploadPart` and `getUploadPartURL` succeed in this model —
the claims it settles concern resume reconciliation, not transport
failures. -/

/-- State of a resume run: delivered-chunk counter `cidx`, ids passed to
`uploadPart`, ids skipped by the resume check, the error latch with its
cancellation flag, and whether the single worker is still in its
receive loop. -/
structure RunSt where
  cidx : Nat
  uploads : List Nat
  skipped : List Nat
  err : Option BErr
  canceled : Bool
  workerAlive : Bool
deriving DecidableEq

/-- `setErr` on a resume-run state. -/
def rSetErr (st : RunSt) (e : BErr) : RunSt :=
  if st.err = none then { st with err := some e, canceled := true } else st

/-- The worker's handling of one received chunk (writer.go:150-201):
a chunk whose id is in `seen` is compared hash-for-hash — a mismatch
latches the resume-mismatch error (cancelling the context) and ends the
worker; a match skips the chunk; an unseen chunk is uploaded
(successfully here). -/
def workerStep (seen : Nat → Option Nat) (hsh : Nat) (id : Nat) (st : RunSt) : RunSt :=
  match seen id with
  | some sha =>
    if sha ≠ hsh then
      { rSetErr st .resumeMismatch with workerAlive := false }
    else
      { st with skipped := st.skipped ++ [id] }
  | none => { st with uploads := st.uploads ++ [id] }

/-- One dispatch on the rendezvous `ready` channel (writer.go:384-392)
followed by the worker's handling of the chunk.  A live worker receives
the chunk (the send succeeds, `cidx` is incremented) and processes it;
with the single worker gone the send can never be matched, so the
`ctx.Done` arm fires (the latch that killed the worker also cancelled
the context).  The boolean reports whether `sendChunk` returned nil. -/
def dispatchE (seen : Nat → Option Nat) (hsh : Nat) (st : RunSt) : RunSt × Bool :=
  if st.workerAlive then
    (workerStep seen hsh (st.cidx + 1) { st with cidx := st.cidx + 1 }, true)
  else
    (rSetErr st .ctxCanceled, false)

/-- The write phase of a resume run: each full chunk is dispatched in
stream order; once the latch is set, `Write` returns the latched error
and no further chunk is dispatched. -/
def writePhase (seen : Nat → Option Nat) : List Nat → RunSt → RunSt
  | [], st => st
  | hsh :: rest, st =>
    if st.err.isSome then st
    else writePhase seen rest (dispatchE seen hsh st).1

/-- Result of a full resume session: the `uploadPart` ids, the skipped
ids, whether `finishLargeFile` was invoked, and the error returned by
`Close`. -/
structure RunRes where
  uploads : List Nat
  skipped : List Nat
  finishCalled : Bool
  closeRet : Option BErr
  st : RunSt
deriving DecidableEq

/-- `Writer.Close` for a resume run.  The active buffer is non-empty iff
a full chunk failed dispatch (`cidx < full.length`, its bytes are still
in `w.w`) or a trailing partial chunk exists; in that case `Close`
dispatches it and returns early on failure without finishing.  Only
after a clean drain — or after the final dispatch succeeded, even if
the worker then latched a mismatch — does `Close` invoke
`finishLargeFile`; `finishRes` is that call's outcome, fed to `setErr`,
and `Close` returns `getErr()`. -/
def closeRun (seen : Nat → Option Nat) (full : List Nat) (trailing : Option Nat)
    (finishRes : Option BErr) (st : RunSt) : RunRes :=
  if st.cidx = 0 then
    { uploads := st.uploads, skipped := st.skipped, finishCalled := false,
      closeRet := st.err, st := st }
  else
    let bufChunk := match full[st.cidx]? with
      | some hsh => some hsh
      | none => trailing
    match bufChunk with
    | some hsh =>
      let p := dispatchE seen hsh st
      if p.2 then
        let st2 := match finishRes with
          | none => p.1
          | some e => rSetErr p.1 e
        { uploads := st2.uploads, skipped := st2.skipped, finishCalled := true,
          closeRet := st2.err, st := st2 }
      else
        { uploads := p.1.uploads, skipped := p.1.skipped, finishCalled := false,
          closeRet := p.1.err, st := p.1 }
    | none =>
      let st2 := match finishRes with
        | none => st
        | some e => rSetErr st e
      { uploads := st2.uploads, skipped := st2.skipped, finishCalled := true,
        closeRet := st2.err, st := st2 }

/-- The initial resume-run state: worker spawned, nothing dispatched. -/
def initRun : RunSt :=
  { cidx := 0, uploads := [], skipped := [], err := none, canceled := false,
    workerAlive := true }

/-- A whole resume session: the stream consists of the full chunks
(hashes `full`, ids `1..full.length`) dispatched during `Write` and an
optional trailing partial chunk (id `full.length + 1`) dispatched by
`Close`. -/
def runResume (seen : Nat → Option Nat) (full : List Nat) (trailing : Option Nat)
    (finishRes : Option BErr) : RunRes :=
  closeRun seen full trailing finishRes (writePhase seen full initRun)

/-! ## Worker retry loop (writer.go:165-202) and `meteredReader` -/

/-- `meteredReader` (writer.go:487-507): a byte counter over a reader of
declared size. -/
structure meteredReader where
  read : Nat
  size : Nat
deriving DecidableEq

/-- `meteredReader.Seek` (writer.go:502-507): sets the byte counter to
the target offset (and seeks the underlying reader there). -/
def meteredReader.SeekTo (mr : meteredReader) (offset : Nat) : meteredReader :=
  { mr with read := offset }

/-- Observable events of one chunk's upload attempts.  `attempt k`
records an `uploadPart` execution whose metered reader starts with byte
counter `k`; `slept ms` a backoff sleep; `refreshedEndpoint` a
`getUploadPartURL` call made before a retry. -/
inductive ThreadEvent where
  | attempt (startCounter : Nat)
  | slept (ms : Nat)
  | refreshedEndpoint
deriving DecidableEq

/-- Outcome of one `uploadPart` execution: the byte count it returned
and its error. -/
structure AttemptOutcome where
  n : Nat
  err : Option BErr
deriving DecidableEq

/-- Modelled from the spec: `uploadPart` (backend code of this
repository, not under `src/`) rewinds the supplied reader — "the
metered reader is seekable; its seek resets byte counter and underlying
offset" — so each (re-)execution reads the chunk from offset 0; after
the call the counter holds the bytes the transport consumed. -/
def uploadPart (mr : meteredReader) (o : AttemptOutcome) : meteredReader × AttemptOutcome :=
  let mr0 := mr.SeekTo 0
  ({ mr0 with read := o.n }, o)

/-- Result of the retry loop for one chunk: the events in order, the
error latched on exit (`none` = the chunk was uploaded), and whether it
succeeded. -/
structure ChunkUploadRes where
  events : List ThreadEvent
  result : Option BErr
  ok : Bool
deriving DecidableEq

/-- The `redo` loop of `Writer.thread` (writer.go:173-198): execute
`uploadPart`; on a byte-count mismatch or a non-nil error, consult
`reupload`; when retryable, sleep for the current delay, double it,
cap it at 15 s (15000 ms), obtain a fresh part endpoint, and retry;
when not retryable, latch the error (which may be nil when only the
byte count mismatched) and stop.  `outcomes` is the oracle of
attempt outcomes; `sleep` starts at 15 ms (writer.go:173). -/
def uploadChunkLoop (reupload : Option BErr → Bool) (len : Nat) :
    List AttemptOutcome → Nat → meteredReader → List ThreadEvent → ChunkUploadRes
  | [], _, _, evs => { events := evs, result := some .uploadFailed, ok := false }
  | o :: rest, sleep, mr, evs =>
    let p := uploadPart mr o
    let evs := evs ++ [.attempt (mr.SeekTo 0).read]
    if o.n ≠ len ∨ o.err ≠ none then
      if reupload o.err then
        let sleep2 := if sleep * 2 > 15000 then 15000 else sleep * 2
        uploadChunkLoop reupload len rest sleep2 p.1 (evs ++ [.slept sleep, .refreshedEndpoint])
      else
        { events := evs, result := o.err, ok := false }
    else
      { events := evs, result := none, ok := true }

/-- The delay slept before the `k`-th retry of a chunk (0-based). -/
def backoffDelay (k : Nat) : Nat :=
  min (15 * 2 ^ k) 15000

/-- The expected event trace of a chunk whose first `m` attempts fail
with retryable outcomes and whose next attempt succeeds, entered at
retry index `k`: each re-execution is preceded by the capped
exponential sleep and an endpoint refresh, and every attempt reads the
chunk from byte counter 0. -/
def retryTrace : Nat → Nat → List ThreadEvent
  | _, 0 => [.attempt 0]
  | k, m + 1 =>
    .attempt 0 :: .slept (backoffDelay k) :: .refreshedEndpoint :: retryTrace (k + 1) m

/-! ## Single-shot upload retry (writer.go:252-285) -/

/-- The `redo` loop of `Writer.simpleWriteFile` (writer.go:269-282):
execute `uploadFile`; on a retryable error obtain a fresh upload
endpoint and retry immediately (the source has no sleep here); a
non-retryable error is returned.  Returns the event trace and the
error. -/
def simpleWriteFileLoop (reupload : Option BErr → Bool) :
    List (Option BErr) → List ThreadEvent → List ThreadEvent × Option BErr
  | [], evs => (evs, some .uploadFailed)
  | o :: rest, evs =>
    let evs := evs ++ [.attempt 0]
    match o with
    | none => (evs, none)
    | some e =>
      if reupload (some e) then
        simpleWriteFileLoop reupload rest (evs ++ [.refreshedEndpoint])
      else
        (evs, some e)

/-- Recognises a backoff-sleep event. -/
def isSleepEvent : ThreadEvent → Bool
  | .slept _ => true
  | _ => false

/-- The expected event trace of a single-shot upload whose first `m`
attempts fail retryably and whose next attempt succeeds: each retry is
preceded by an endpoint refresh and by no sleep at all. -/
def refreshTrace : Nat → List ThreadEvent
  | 0 => [.attempt 0]
  | m + 1 => .attempt 0 :: .refreshedEndpoint :: refreshTrace m

/-! ## Hex encoding (`fmt.Sprintf("%x", sum)`)

Bytes are ASCII codes; `fmt`'s `%x` verb prints each byte of the digest
as two lowercase hex digits. -/

/-- The lowercase hex digit of a nibble (`0-9` then `a-f`). -/
def hexChar (v : Nat) : Nat :=
  if v < 10 then 48 + v else 87 + v

/-- `%x` of a byte string: two lowercase hex digits per byte. -/
def hexOfBytes (bs : List Nat) : List Nat :=
  bs.flatMap (fun b => [hexChar (b / 16), hexChar (b % 16)])

/-- ASCII codes of lowercase hex digits (`0`-`9`, `a`-`f`). -/
def isLowerHexDigit (c : Nat) : Prop :=
  (48 ≤ c ∧ c ≤ 57) ∨ (97 ≤ c ∧ c ≤ 102)

instance (c : Nat) : Decidable (isLowerHexDigit c) := by
  unfold isLowerHexDigit; infer_instance

/-! ## `nonBuffer` (buffer.go:41-83)

The pass-through chunk buffer over a section of a random-access source.
`src` is the byte content of the section (`io.NewSectionReader rs
offset size`), `pos` the section reader's offset, `acc` the bytes fed
to the running hash so far, `isEOF` and `buf` the end-of-stream state.
The SHA-1 digest is the abstract parameter `h`. -/

structure nonBuffer where
  src : List Nat
  size : Nat
  pos : Nat
  acc : List Nat
  isEOF : Bool
  buf : List Nat
deriving DecidableEq

/-- `newNonBuffer` (buffer.go:41-47) over a section holding `src`. -/
def newNonBuffer (src : List Nat) : nonBuffer :=
  { src := src, size := src.length, pos := 0, acc := [], isEOF := false, buf := [] }

/-- `nonBuffer.Len` (buffer.go:58): declared length is `size + 40`. -/
def nonBuffer.Len (nb : nonBuffer) : Nat := nb.size + 40

/-- `nonBuffer.Hash` (buffer.go:59): the sentinel. -/
def nonBuffer.Hash (_ : nonBuffer) : String := "hex_digits_at_end"

/-- `nonBuffer.Write` (buffer.go:62): writes are rejected. -/
def nonBuffer.WriteB (_ : nonBuffer) (_ : List Nat) : Nat × Option BErr :=
  (0, some .writeNotSupported)

/-- `nonBuffer.Read` (buffer.go:64-75) of up to `n` bytes: past EOF it
drains the hex suffix (`strings.Reader` returns `io.EOF` once empty);
before EOF it reads from the section reader, teeing the bytes into the
hash; the section's end turns into `isEOF = true`, materialises the
suffix `%x(h acc)`, and reports no error.  Result: (bytes, whether
`io.EOF` was returned, new state). -/
def nonBuffer.Read (h : List Nat → List Nat) (nb : nonBuffer) (n : Nat) :
    List Nat × Bool × nonBuffer :=
  if nb.isEOF then
    if nb.buf = [] then
      ([], true, nb)
    else
      (nb.buf.take n, false, { nb with buf := nb.buf.drop n })
  else
    let avail := nb.src.drop nb.pos
    if avail = [] then
      ([], false, { nb with isEOF := true, buf := hexOfBytes (h nb.acc) })
    else
      let bs := avail.take n
      (bs, false, { nb with pos := nb.pos + bs.length, acc := nb.acc ++ bs })

/-- `nonBuffer.Seek` (buffer.go:77-83) to offset 0: resets the hash
state and the EOF flag and rewinds the section reader. -/
def nonBuffer.SeekTo (nb : nonBuffer) (offset : Nat) : nonBuffer :=
  { nb with acc := [], isEOF := false, pos := offset }

/-- Reading a `nonBuffer` to completion: repeat `Read` with request
size `n` until it returns `io.EOF`, concatenating the bytes.  Fuel
bounds the loop. -/
def nonBuffer.readAll (h : List Nat → List Nat) : Nat → nonBuffer → Nat → List Nat
  | 0, _, _ => []
  | fuel + 1, nb, n =>
    let r := nonBuffer.Read h nb n
    if r.2.1 then [] else r.1 ++ nonBuffer.readAll h fuel r.2.2 n

/-! ## `hashReader` (writer.go:517-548) and `ReadFrom` (writer.go:402-420) -/

/-- `hashReader`: reads the underlying seekable source teeing into a
hash and appends `%x` of the digest at EOF — the same streaming
behaviour as `nonBuffer.Read`, used by `simpleWriteFromReader`.  Its
full stream over source `src` is therefore `src ++ %x(h src)`. -/
def hashReaderStream (h : List Nat → List Nat) (src : List Nat) : List Nat :=
  nonBuffer.readAll h 4 (newNonBuffer src) (src.length + 40)

/-- Result of `Writer.ReadFrom`: `copied` is the `copyContext` fallback
for non-seekable sources; `uploaded declaredLen sentinel stream` is a
single-shot `uploadFile` carried out by `simpleWriteFromReader`
(writer.go:287-316) with the given declared length, hash argument and
payload stream; `stub n err` is a plain return of `(n, err)` with no
upload at all. -/
inductive RFRes where
  | copied
  | uploaded (declaredLen : Nat) (sentinel : String) (stream : List Nat)
  | stub (n : Nat) (err : Option BErr)
deriving DecidableEq

/-- `Writer.ReadFrom` (writer.go:402-420): a non-seekable source falls
back to copying into `Write`; for a seekable source the total size is
measured and compared against the raw `ChunkSize` field (`w.init()` has
run, but the default-resolved `w.csize` is not consulted here); below
the threshold, `simpleWriteFromReader` performs one `uploadFile` with
declared length `size + 40`, the `"hex_digits_at_end"` sentinel, and
the hash-suffixed stream; otherwise the function returns `(0, nil)`
(the large-file branch is unimplemented, writer.go:418-419). -/
def ReadFrom (h : List Nat → List Nat) (chunkSizeField : Nat) (seekable : Bool)
    (src : List Nat) : RFRes :=
  if seekable = false then
    .copied
  else
    let size := src.length
    if size < chunkSizeField then
      .uploaded (size + 40) "hex_digits_at_end" (hashReaderStream h src)
    else
      .stub 0 none

/-! ## Progress map and `status` (writer.go:126-136, 472-485, 509-515) -/

/-- The progress map `smap`, modelled as an association list with
distinct keys (insertion replaces the existing entry of the key).  A
value `none` models a stored nil `*meteredReader`. -/
def setKey : List (Nat × Option meteredReader) → Nat → Option meteredReader →
    List (Nat × Option meteredReader)
  | [], id, v => [(id, v)]
  | (k, w) :: t, id, v =>
    if k = id then (k, v) :: t else (k, w) :: setKey t id v

/-- `Writer.registerChunk` (writer.go:126-130): store the reader. -/
def registerChunk (m : List (Nat × Option meteredReader)) (id : Nat)
    (r : meteredReader) : List (Nat × Option meteredReader) :=
  setKey m id (some r)

/-- `Writer.completeChunk` (writer.go:132-136): store nil — the entry
is not deleted. -/
def completeChunk (m : List (Nat × Option meteredReader)) (id : Nat) :
    List (Nat × Option meteredReader) :=
  setKey m id none

/-- Go's `w.smap[i]`: a missing key reads as the zero value nil, and a
stored nil reads as nil too. -/
def lookupPtr (m : List (Nat × Option meteredReader)) (id : Nat) : Option meteredReader :=
  match m.find? (fun p => p.1 == id) with
  | some p => p.2
  | none => none

/-- `meteredReader.done` (writer.go:509-515) on a possibly-nil pointer:
nil reports exactly 1; otherwise the fraction read/size (Go computes it
in `float64`; the value is modelled as the exact rational). -/
def meteredReader.doneFrac : Option meteredReader → ℚ
  | none => 1
  | some mr => (mr.read : ℚ) / (mr.size : ℚ)

/-- `WriterStatus` (writer.go:472-485). -/
structure WriterStatusM where
  Progress : List ℚ
deriving DecidableEq

/-- `Writer.status`: one slot per map entry; slot `i-1` is
`smap[i].done()` for `i = 1..len(smap)`. -/
def statusW (m : List (Nat × Option meteredReader)) : WriterStatusM :=
  { Progress := (List.range m.length).map (fun i => meteredReader.doneFrac (lookupPtr m (i + 1))) }

/-! ## Concrete instances used by witnesses and counterexamples -/

/-- The writer state after `Write` of exactly `10^8` bytes at the
default chunk size. -/
def stC2 : WSt :=
  { csize := 100000000, bufLen := 0, cidx := 1, sent := [(1, 100000000)],
    err := none, canceled := false, everStarted := true }

/-- A writer state with a latched error. -/
def stC3W : WSt :=
  { csize := 5, bufLen := 2, cidx := 1, sent := [(1, 5)],
    err := some .resumeMismatch, canceled := true, everStarted := true }

/-- Server-side part hashes with part 2 tampered: part 1 matches the
replayed chunk hash 11, part 2 stores 99 while the replayed chunk
hashes to 22. -/
def seenTampered : Nat → Option Nat :=
  fun id => if id = 1 then some 11 else if id = 2 then some 99 else none

/-- Server-side part hashes holding exactly part 1 of a 2-chunk stream,
with the correct hash. -/
def seenPartOne : Nat → Option Nat :=
  fun id => if id = 1 then some 5 else none

/-- A concrete stand-in digest function for witnesses: every input maps
to 20 zero bytes. -/
def zeroDigest : List Nat → List Nat :=
  fun _ => List.replicate 20 0

/-- A concrete retryable-error classifier. -/
def reuploadOn : Option BErr → Bool :=
  fun e => e == some (.other 0)

/-! # Theorems -/

/-! ## Supporting lemmas -/

/-- Filtering a list by a predicate and by its negation partitions it. -/
theorem length_filter_add_length_filter_not (l : List Nat) (p : Nat → Bool) :
    (l.filter p).length + (l.filter (fun a => !(p a))).length = l.length := by
  induction l with
  | nil => simp
  | cons a t ih => by_cases h : p a <;> simp [List.filter_cons, h] <;> omega

/-- Division of a sum, split at the first summand's remainder. -/
theorem nat_div_decompose (a s m : Nat) (hm : 0 < m) :
    (a + s) / m = a / m + (a % m + s) / m := by
  conv_lhs => rw [← Nat.div_add_mod a m]
  rw [Nat.add_assoc, Nat.mul_add_div hm]

/-- Projecting the ids back out of a dispatched-chunk list. -/
theorem map_fst_comp_pair (m : Nat) (l : List Nat) :
    List.map (Prod.fst ∘ fun id => (id, m)) l = l :=
  List.map_id l

/-- Closed form of the `Write` recursion: starting from a buffer filled
below `csize`, a call accepting `c` bytes dispatches
`(bufLen + c) / csize` chunks of exactly `csize` bytes with the
consecutive ids `cidx+1, cidx+2, …`, and leaves `(bufLen + c) % csize`
bytes in the buffer. -/
theorem writeLoop_eq (fuel : Nat) : ∀ (c : Nat) (st : WSt),
    st.bufLen < st.csize → c < fuel →
    writeLoop fuel st c =
      some (c,
        { st with
          bufLen := (st.bufLen + c) % st.csize
          cidx := st.cidx + (st.bufLen + c) / st.csize
          sent := st.sent ++ (List.range' (st.cidx + 1) ((st.bufLen + c) / st.csize)).map
            (fun id => (id, st.csize)) }) := by
  induction fuel with
  | zero => intro c st _ hc; omega
  | succ fuel ih =>
    intro c st hb hc
    by_cases hlt : c < st.csize - st.bufLen
    · have h1 : (st.bufLen + c) % st.csize = st.bufLen + c := Nat.mod_eq_of_lt (by omega)
      have h2 : (st.bufLen + c) / st.csize = 0 := Nat.div_eq_of_lt (by omega)
      simp [writeLoop, hlt, h1, h2]
    · have hcs : 0 < st.csize := by omega
      have hrec := ih (c - (st.csize - st.bufLen)) (sendChunk { st with bufLen := st.csize })
        (by simpa [sendChunk] using hcs) (by omega)
      have hkey : st.bufLen + c = st.csize + (c - (st.csize - st.bufLen)) := by omega
      simp only [writeLoop, hlt, if_false]
      rw [hrec]
      simp only [sendChunk]
      rw [hkey, Nat.add_mod_left, Nat.add_div_left _ hcs]
      simp [List.range'_succ, Nat.add_assoc, Nat.add_comm 1]
      omega

/-- Closed form of a session of `Write` calls on a non-latched writer:
all bytes are accepted, the dispatched chunks carry the consecutive ids
starting at `cidx + 1`, and the buffer retains the remainder. -/
theorem writeSeq_eq : ∀ (cs : List Nat), cs ≠ [] → ∀ (fuel : Nat) (st : WSt),
    st.err = none → st.bufLen < st.csize → (∀ c ∈ cs, c < fuel) →
    writeSeq fuel st cs =
      some
        { st with
          everStarted := true
          bufLen := (st.bufLen + cs.sum) % st.csize
          cidx := st.cidx + (st.bufLen + cs.sum) / st.csize
          sent := st.sent ++ (List.range' (st.cidx + 1) ((st.bufLen + cs.sum) / st.csize)).map
            (fun id => (id, st.csize)) } := by
  intro cs
  induction cs with
  | nil => intro h; exact absurd rfl h
  | cons c cs ih =>
    intro _ fuel st herr hb hf
    have hw : Write fuel st c =
        some (c,
          { st with
            everStarted := true
            bufLen := (st.bufLen + c) % st.csize
            cidx := st.cidx + (st.bufLen + c) / st.csize
            sent := st.sent ++ (List.range' (st.cidx + 1) ((st.bufLen + c) / st.csize)).map
              (fun id => (id, st.csize)) }) := by
      have := writeLoop_eq fuel c { st with everStarted := true } hb
        (hf c (List.mem_cons_self c cs))
      simpa [Write, herr] using this
    have hcs : 0 < st.csize := by omega
    rcases List.eq_nil_or_concat cs with hnil | _
    · subst hnil
      simp [writeSeq, hw]
    · have hne : cs ≠ [] := by
        rintro rfl
        simp_all
      have hrec := ih hne fuel
        { st with
          everStarted := true
          bufLen := (st.bufLen + c) % st.csize
          cidx := st.cidx + (st.bufLen + c) / st.csize
          sent := st.sent ++ (List.range' (st.cidx + 1) ((st.bufLen + c) / st.csize)).map
            (fun id => (id, st.csize)) }
        herr (Nat.mod_lt _ hcs) (fun c2 h2 => hf c2 (List.mem_cons_of_mem c h2))
      simp only [writeSeq, hw]
      rw [hrec]
      have hm : ((st.bufLen + c) % st.csize + cs.sum) % st.csize =
          (st.bufLen + (c :: cs).sum) % st.csize := by
        rw [Nat.mod_add_mod, List.sum_cons, ← Nat.add_assoc]
      have hd : (st.bufLen + c) / st.csize +
          ((st.bufLen + c) % st.csize + cs.sum) / st.csize =
          (st.bufLen + (c :: cs).sum) / st.csize := by
        rw [List.sum_cons, ← Nat.add_assoc, nat_div_decompose (st.bufLen + c) cs.sum _ hcs]
      have harange : List.range' (st.cidx + 1) ((st.bufLen + c) / st.csize) ++
          List.range' (st.cidx + (st.bufLen + c) / st.csize + 1)
            (((st.bufLen + c) % st.csize + cs.sum) / st.csize) =
          List.range' (st.cidx + 1) ((st.bufLen + (c :: cs).sum) / st.csize) := by
        rw [← hd]
        have hsh : st.cidx + (st.bufLen + c) / st.csize + 1 =
            st.cidx + 1 + (st.bufLen + c) / st.csize := by omega
        rw [hsh, List.range'_append_1, Nat.add_comm
          (((st.bufLen + c) % st.csize + cs.sum) / st.csize)]
      simp only [Option.some.injEq, WSt.mk.injEq]
      refine ⟨trivial, ?_, ?_, ?_, trivial, trivial, trivial⟩
      · rw [hm]
      · rw [Nat.add_assoc, hd]
      · rw [List.append_assoc, ← List.map_append, harange]

/-! ## C1: contiguous part ids and the part count -/

/-- C1: in an error-free session, the chunk ids dispatched by the write
engine (each `sendChunk` sends id `cidx+1` and then increments `cidx`)
together with the final chunk dispatched by `Close` form the contiguous
sequence `1..K`; when the total bytes written reach `chunkSize`,
`K = ⌈totalBytes / chunkSize⌉`, and when they fall short the small-file
path is taken and no parts are created. -/
theorem c1_chunk_ids_contiguous (chunkSize fuel : Nat) (cs : List Nat)
    (hne : cs ≠ []) (hf : ∀ c ∈ cs, c < fuel) :
    ∃ stF : WSt,
      writeSeq fuel (initW (initCsize chunkSize)) cs = some stF ∧
      (stF.sent ++ (Close stF none none).finalSent).map Prod.fst =
        List.range' 1 (stF.sent ++ (Close stF none none).finalSent).length ∧
      (initCsize chunkSize ≤ cs.sum →
        (stF.sent ++ (Close stF none none).finalSent).length =
          (cs.sum + initCsize chunkSize - 1) / initCsize chunkSize) ∧
      (cs.sum < initCsize chunkSize →
        (Close stF none none).smallPath = true ∧
        stF.sent ++ (Close stF none none).finalSent = []) := by
  have hm : 0 < initCsize chunkSize := by unfold initCsize; split <;> omega
  have hws := writeSeq_eq cs hne fuel (initW (initCsize chunkSize)) rfl
    (by simpa [initW] using hm) hf
  have hstF : writeSeq fuel (initW (initCsize chunkSize)) cs =
      some
        { csize := initCsize chunkSize
          bufLen := cs.sum % initCsize chunkSize
          cidx := cs.sum / initCsize chunkSize
          sent := (List.range' 1 (cs.sum / initCsize chunkSize)).map
            (fun id => (id, initCsize chunkSize))
          err := none, canceled := false, everStarted := true } := by
    rw [hws]
    simp [initW]
  refine ⟨_, hstF, ?_, ?_, ?_⟩
  · by_cases hlt : cs.sum < initCsize chunkSize
    · have hd : cs.sum / initCsize chunkSize = 0 := Nat.div_eq_of_lt hlt
      simp [Close, hd]
    · have hd : cs.sum / initCsize chunkSize ≠ 0 :=
        Nat.pos_iff_ne_zero.mp (Nat.div_pos (by omega) hm)
      by_cases hr : cs.sum % initCsize chunkSize = 0
      · simp [Close, hd, hr, map_fst_comp_pair]
      · have hpos : 0 < cs.sum % initCsize chunkSize := Nat.pos_of_ne_zero hr
        simp [Close, hd, hpos, map_fst_comp_pair, List.range'_concat, Nat.add_comm]
  · intro hge
    have hd : cs.sum / initCsize chunkSize ≠ 0 :=
      Nat.pos_iff_ne_zero.mp (Nat.div_pos hge hm)
    have hdm := Nat.div_add_mod cs.sum (initCsize chunkSize)
    by_cases hr : cs.sum % initCsize chunkSize = 0
    · have hz : (initCsize chunkSize - 1) / initCsize chunkSize = 0 :=
        Nat.div_eq_of_lt (by omega)
      have hceil : (cs.sum + initCsize chunkSize - 1) / initCsize chunkSize =
          cs.sum / initCsize chunkSize := by
        have h1 : cs.sum + initCsize chunkSize - 1 =
            initCsize chunkSize * (cs.sum / initCsize chunkSize) +
              (initCsize chunkSize - 1) := by omega
        rw [h1, Nat.mul_add_div hm, hz]
        omega
      simp [Close, hd, hr, hceil]
    · have hrlt : cs.sum % initCsize chunkSize < initCsize chunkSize :=
        Nat.mod_lt _ hm
      have hz : (cs.sum % initCsize chunkSize - 1) / initCsize chunkSize = 0 :=
        Nat.div_eq_of_lt (by omega)
      have hceil : (cs.sum + initCsize chunkSize - 1) / initCsize chunkSize =
          cs.sum / initCsize chunkSize + 1 := by
        have h1 : cs.sum + initCsize chunkSize - 1 =
            initCsize chunkSize * (cs.sum / initCsize chunkSize + 1) +
              (cs.sum % initCsize chunkSize - 1) := by
          have hmul : initCsize chunkSize * (cs.sum / initCsize chunkSize + 1) =
              initCsize chunkSize * (cs.sum / initCsize chunkSize) +
                initCsize chunkSize := by ring
          omega
        rw [h1, Nat.mul_add_div hm, hz]
      have hpos : 0 < cs.sum % initCsize chunkSize := Nat.pos_of_ne_zero hr
      simp [Close, hd, hpos, hceil]
  · intro hlt
    have hd : cs.sum / initCsize chunkSize = 0 := Nat.div_eq_of_lt hlt
    simp [Close, hd]

/-- C1 witness at chunk size 3 and writes of 2, 2 and 3 bytes
(`K = ⌈7/3⌉ = 3`). -/
theorem c1_chunk_ids_contiguous_witness :
    ∃ stF : WSt,
      writeSeq 10 (initW (initCsize 3)) [2, 2, 3] = some stF ∧
      (stF.sent ++ (Close stF none none).finalSent).map Prod.fst =
        List.range' 1 (stF.sent ++ (Close stF none none).finalSent).length ∧
      (initCsize 3 ≤ [2, 2, 3].sum →
        (stF.sent ++ (Close stF none none).finalSent).length =
          ([2, 2, 3].sum + initCsize 3 - 1) / initCsize 3) ∧
      ([2, 2, 3].sum < initCsize 3 →
        (Close stF none none).smallPath = true ∧
        stF.sent ++ (Close stF none none).finalSent = []) :=
  c1_chunk_ids_contiguous 3 10 [2, 2, 3] (by decide) (by decide)

/-! ## C2: writing exactly `chunkSize` bytes -/

/-- C2 (evaluation at the failing input): with the default chunk size,
writing exactly `10^8` bytes makes `Write` fill the buffer to exactly
`csize` (`len(p) < left` is false) and dispatch chunk 1, so `cidx = 1`
at `Close` and the large-file path runs — `finishLargeFile`, not the
small-file `uploadFile` promised by the claim and by the `Writer` doc
comment ("switches to the large file API if the file exceeds ChunkSize
bytes"). -/
theorem c2_exact_chunksize_takes_large_path :
    Write 2 (initW (initCsize 0)) (10 ^ 8) = some (10 ^ 8, stC2) ∧
    stC2.cidx = 1 ∧
    (Close stC2 none none).smallPath = false ∧
    (Close stC2 none none).finishCalled = true := by decide

/-! ## C3: the write-once error latch -/

/-- C3: the first non-nil error wins and trips cancellation; once
latched, `setErr` changes nothing, `Write` returns `(0, latched error)`
without accepting bytes, and `Close` returns the latched error. -/
theorem c3_error_latch (st : WSt) (e0 : BErr) (h : st.err = some e0) :
    (∀ e, setErr st e = st) ∧
    (∀ fuel c, Write fuel st c = some (0, { st with everStarted := true })) ∧
    (∀ a b, (Close st a b).ret = some e0) ∧
    (∀ st0 : WSt, st0.err = none → ∀ e1 : BErr,
      (setErr st0 (some e1)).err = some e1 ∧ (setErr st0 (some e1)).canceled = true) := by
  have hset : ∀ e, setErr st e = st := by
    intro e
    cases e with
    | none => rfl
    | some e1 => simp [setErr, h]
  have hsend : ∀ e, setErr (sendChunk st) e = sendChunk st := by
    intro e
    cases e with
    | none => rfl
    | some e1 => simp [setErr, sendChunk, h]
  refine ⟨hset, ?_, ?_, ?_⟩
  · intro fuel c
    simp [Write, h]
  · intro a b
    simp only [Close]
    split
    · exact h
    · split
      · rw [hset]; exact h
      · split
        · split
          · rw [hset]; exact h
          · rw [hsend]; exact h
        · rw [hset]; exact h
  · intro st0 h0 e1
    simp [setErr, h0]

/-- C3 witness on a concrete latched writer state. -/
theorem c3_error_latch_witness : (Close stC3W none none).ret = some BErr.resumeMismatch :=
  (c3_error_latch stC3W BErr.resumeMismatch rfl).2.2.1 none none

/-! ## C4: resume reconciliation -/

/-- A latched resume run dispatches nothing further. -/
theorem writePhase_latched (seen : Nat → Option Nat) (l : List Nat) (st : RunSt)
    (h : st.err.isSome = true) : writePhase seen l st = st := by
  cases l with
  | nil => rfl
  | cons a t => simp [writePhase, h]

/-- Clean write phase: when every consulted server hash matches (or the
id is unseen), all chunks are delivered; unseen ids are uploaded and
seen ids skipped, in stream order. -/
theorem writePhase_clean (seen : Nat → Option Nat) :
    ∀ (full : List Nat) (st : RunSt), st.err = none → st.workerAlive = true →
    (∀ i, (hi : i < full.length) → seen (st.cidx + i + 1) = none ∨
      seen (st.cidx + i + 1) = some (full.get ⟨i, hi⟩)) →
    writePhase seen full st =
      { st with
        cidx := st.cidx + full.length
        uploads := st.uploads ++ (List.range' (st.cidx + 1) full.length).filter
          (fun id => (seen id).isNone)
        skipped := st.skipped ++ (List.range' (st.cidx + 1) full.length).filter
          (fun id => (seen id).isSome) } := by
  intro full
  induction full with
  | nil =>
    intro st herr halive _
    simp [writePhase]
  | cons hsh rest ih =>
    intro st herr halive hmatch
    have h0 := hmatch 0 (by simp)
    simp only [Nat.add_zero, List.get_eq_getElem, List.getElem_cons_zero] at h0
    have hstep : writePhase seen (hsh :: rest) st =
        writePhase seen rest (dispatchE seen hsh st).1 := by
      simp [writePhase, herr]
    have hr1 : List.range' (st.cidx + 1) (rest.length + 1) =
        (st.cidx + 1) :: List.range' (st.cidx + 1 + 1) rest.length :=
      List.range'_succ _ _ _
    have hshift : ∀ i, (hi : i < rest.length) → seen (st.cidx + 1 + i + 1) = none ∨
        seen (st.cidx + 1 + i + 1) = some (rest.get ⟨i, hi⟩) := by
      intro i hi
      have hm2 := hmatch (i + 1) (by simpa using Nat.succ_lt_succ hi)
      have hidx : st.cidx + (i + 1) + 1 = st.cidx + 1 + i + 1 := by omega
      rw [hidx] at hm2
      simpa using hm2
    rcases h0 with h0 | h0
    · have hd : (dispatchE seen hsh st).1 =
          { st with cidx := st.cidx + 1, uploads := st.uploads ++ [st.cidx + 1] } := by
        simp [dispatchE, halive, workerStep, h0]
      have hrec := ih { st with cidx := st.cidx + 1, uploads := st.uploads ++ [st.cidx + 1] }
        herr halive hshift
      rw [hstep, hd, hrec]
      simp only [List.length_cons, hr1, List.filter_cons, h0, Option.isNone_none,
        Option.isSome_none, if_true, if_false, RunSt.mk.injEq, Bool.false_eq_true]
      refine ⟨by omega, by simp, by simp, trivial, trivial, trivial⟩
    · have hd : (dispatchE seen hsh st).1 =
          { st with cidx := st.cidx + 1, skipped := st.skipped ++ [st.cidx + 1] } := by
        simp [dispatchE, halive, workerStep, h0]
      have hrec := ih { st with cidx := st.cidx + 1, skipped := st.skipped ++ [st.cidx + 1] }
        herr halive hshift
      rw [hstep, hd, hrec]
      simp only [List.length_cons, hr1, List.filter_cons, h0, Option.isNone_some,
        Option.isSome_some, if_true, if_false, RunSt.mk.injEq, Bool.false_eq_true]
      refine ⟨by omega, by simp, by simp, trivial, trivial, trivial⟩

/-- Tampered write phase: the first chunk whose stored hash differs
latches the resume-mismatch error, cancels the context and kills the
worker; nothing after it is dispatched. -/
theorem writePhase_mismatch (seen : Nat → Option Nat) :
    ∀ (full : List Nat) (j : Nat) (st : RunSt), (hjlen : j < full.length) → st.err = none →
    st.workerAlive = true →
    (∀ i, (hi : i < j) → seen (st.cidx + i + 1) = none ∨
      seen (st.cidx + i + 1) = some (full.get ⟨i, by omega⟩)) →
    (seen (st.cidx + j + 1)).isSome = true →
    (∀ hj : j < full.length, seen (st.cidx + j + 1) ≠ some (full.get ⟨j, hj⟩)) →
    writePhase seen full st =
      { st with
        cidx := st.cidx + j + 1
        uploads := st.uploads ++ (List.range' (st.cidx + 1) j).filter
          (fun id => (seen id).isNone)
        skipped := st.skipped ++ (List.range' (st.cidx + 1) j).filter
          (fun id => (seen id).isSome)
        err := some BErr.resumeMismatch
        canceled := true
        workerAlive := false } := by
  intro full
  induction full with
  | nil =>
    intro j st hj
    exact absurd hj (by simp)
  | cons hsh rest ih =>
    intro j st hj herr halive hclean hsome hmis
    have hstep : writePhase seen (hsh :: rest) st =
        writePhase seen rest (dispatchE seen hsh st).1 := by
      simp [writePhase, herr]
    cases j with
    | zero =>
      obtain ⟨sha, hsha⟩ := Option.isSome_iff_exists.mp hsome
      have hsha0 : seen (st.cidx + 1) = some sha := by simpa using hsha
      have hsne : sha ≠ hsh := by
        intro hEq
        subst hEq
        exact hmis hj (by simpa [List.get_eq_getElem] using hsha)
      have hd : (dispatchE seen hsh st).1 =
          { st with
            cidx := st.cidx + 1
            err := some BErr.resumeMismatch
            canceled := true
            workerAlive := false } := by
        simp [dispatchE, halive, workerStep, hsha0, hsne, rSetErr, herr]
      rw [hstep, hd, writePhase_latched seen rest _ (by simp)]
      simp
    | succ j =>
      have h0 := hclean 0 (by omega)
      simp only [Nat.add_zero, List.get_eq_getElem, List.getElem_cons_zero] at h0
      have hr1 : List.range' (st.cidx + 1) (j + 1) =
          (st.cidx + 1) :: List.range' (st.cidx + 1 + 1) j :=
        List.range'_succ _ _ _
      have hj2 : j < rest.length := by simpa using Nat.lt_of_succ_lt_succ hj
      have hshift : ∀ i, (hi : i < j) → seen (st.cidx + 1 + i + 1) = none ∨
          seen (st.cidx + 1 + i + 1) = some (rest.get ⟨i, by omega⟩) := by
        intro i hi
        have hm2 := hclean (i + 1) (by omega)
        have hidx : st.cidx + (i + 1) + 1 = st.cidx + 1 + i + 1 := by omega
        rw [hidx] at hm2
        simpa using hm2
      have hsome2 : (seen (st.cidx + 1 + j + 1)).isSome = true := by
        have hidx : st.cidx + (j + 1) + 1 = st.cidx + 1 + j + 1 := by omega
        rw [hidx] at hsome
        exact hsome
      have hmis2 : ∀ hj2 : j < rest.length,
          seen (st.cidx + 1 + j + 1) ≠ some (rest.get ⟨j, hj2⟩) := by
        intro hj2
        have hidx : st.cidx + (j + 1) + 1 = st.cidx + 1 + j + 1 := by omega
        have := hmis hj
        rw [hidx] at this
        simpa using this
      rcases h0 with h0 | h0
      · have hd : (dispatchE seen hsh st).1 =
            { st with cidx := st.cidx + 1, uploads := st.uploads ++ [st.cidx + 1] } := by
          simp [dispatchE, halive, workerStep, h0]
        have hrec := ih j { st with cidx := st.cidx + 1, uploads := st.uploads ++ [st.cidx + 1] }
          hj2 herr halive hshift hsome2 hmis2
        rw [hstep, hd, hrec]
        simp only [hr1, List.filter_cons, h0, Option.isNone_none, Option.isSome_none,
          if_true, if_false, RunSt.mk.injEq, Bool.false_eq_true]
        refine ⟨by omega, by simp, by simp, trivial, trivial, trivial⟩
      · have hd : (dispatchE seen hsh st).1 =
            { st with cidx := st.cidx + 1, skipped := st.skipped ++ [st.cidx + 1] } := by
          simp [dispatchE, halive, workerStep, h0]
        have hrec := ih j { st with cidx := st.cidx + 1, skipped := st.skipped ++ [st.cidx + 1] }
          hj2 herr halive hshift hsome2 hmis2
        rw [hstep, hd, hrec]
        simp only [hr1, List.filter_cons, h0, Option.isNone_some, Option.isSome_some,
          if_true, if_false, RunSt.mk.injEq, Bool.false_eq_true]
        refine ⟨by omega, by simp, by simp, trivial, trivial, trivial⟩

/-- C4 (amended): with `resume = true` and server parts `P ⊆ {1..K}`,
every part whose stored hash equals the replayed chunk's hash is
skipped and `uploadPart` runs exactly for the `K − |P|` ids not in `P`;
a stored hash that differs latches the fatal resume-mismatch error,
which `Close` returns.  `finishLargeFile` is not reached whenever an
undelivered chunk remains at `Close`, but when the mismatching chunk is
the last one delivered, `Close` still invokes `finishLargeFile` (under
the cancelled context; its outcome cannot displace the latched
error). -/
theorem c4_resume_reconciliation (seen : Nat → Option Nat) (full : List Nat)
    (trailing : Option Nat) (hne : full ≠ []) :
    ((∀ i, (hi : i < (full ++ trailing.toList).length) → seen (i + 1) = none ∨
        seen (i + 1) = some ((full ++ trailing.toList).get ⟨i, hi⟩)) →
      (runResume seen full trailing none).closeRet = none ∧
      (runResume seen full trailing none).finishCalled = true ∧
      (runResume seen full trailing none).uploads =
        (List.range' 1 (full ++ trailing.toList).length).filter
          (fun id => (seen id).isNone) ∧
      (runResume seen full trailing none).uploads.length =
        (full ++ trailing.toList).length -
          ((List.range' 1 (full ++ trailing.toList).length).filter
            (fun id => (seen id).isSome)).length) ∧
    (∀ j, (hj : j < (full ++ trailing.toList).length) → ∀ finishRes : Option BErr,
      (∀ i, (hi : i < j) → seen (i + 1) = none ∨
        seen (i + 1) = some ((full ++ trailing.toList).get ⟨i, by omega⟩)) →
      (seen (j + 1)).isSome = true →
      seen (j + 1) ≠ some ((full ++ trailing.toList).get ⟨j, hj⟩) →
      (runResume seen full trailing finishRes).closeRet = some BErr.resumeMismatch ∧
      (j + 1 < (full ++ trailing.toList).length →
        (runResume seen full trailing finishRes).finishCalled = false) ∧
      (j + 1 = (full ++ trailing.toList).length →
        (runResume seen full trailing finishRes).finishCalled = true)) := by
  have hflen : 0 < full.length := List.length_pos.mpr hne
  have hfne : full.length ≠ 0 := Nat.pos_iff_ne_zero.mp hflen
  have hpart : ∀ l : List Nat,
      (l.filter (fun id => (seen id).isSome)).length +
        (l.filter (fun id => (seen id).isNone)).length = l.length := by
    intro l
    have h := length_filter_add_length_filter_not l (fun id => (seen id).isSome)
    simpa [Option.bnot_isSome] using h
  have hnone : full[(full.length : Nat)]? = none := List.getElem?_eq_none (by omega)
  constructor
  · -- all stored hashes match
    intro hmatch
    have hwp := writePhase_clean seen full initRun rfl rfl (by
      intro i hi
      have hi2 : i < (full ++ trailing.toList).length := by
        rw [List.length_append]; omega
      have h := hmatch i hi2
      have hget : (full ++ trailing.toList).get ⟨i, hi2⟩ = full.get ⟨i, hi⟩ := by
        simp [List.get_eq_getElem, List.getElem_append_left hi]
      rw [hget] at h
      simpa [initRun] using h)
    simp [initRun] at hwp
    rcases htl : trailing with _ | th
    · subst htl
      have huv : (runResume seen full none none).uploads =
          (List.range' 1 full.length).filter (fun id => (seen id).isNone) ∧
          (runResume seen full none none).closeRet = none ∧
          (runResume seen full none none).finishCalled = true := by
        simp [runResume, closeRun, initRun, hwp, hnone, hfne]
      refine ⟨huv.2.1, huv.2.2, by simpa using huv.1, ?_⟩
      rw [huv.1]
      have hp := hpart (List.range' 1 full.length)
      have hlr := List.length_range' 1 1 full.length
      simp only [Option.toList_none, List.append_nil]
      omega
    · subst htl
      have hK : (full ++ (some th).toList).length = full.length + 1 := by simp
      have hlast := hmatch full.length (by omega)
      have hgetl : ∀ hx : full.length < (full ++ (some th).toList).length,
          (full ++ (some th).toList).get ⟨full.length, hx⟩ = th := by
        intro hx
        simp [List.get_eq_getElem, List.getElem_append_right (Nat.le_refl full.length)]
      rw [hgetl _] at hlast
      have hrange : List.range' 1 (full.length + 1) =
          List.range' 1 full.length ++ [1 + 1 * full.length] :=
        List.range'_concat 1 full.length
      have huv : (runResume seen full (some th) none).uploads =
          (List.range' 1 (full.length + 1)).filter (fun id => (seen id).isNone) ∧
          (runResume seen full (some th) none).closeRet = none ∧
          (runResume seen full (some th) none).finishCalled = true := by
        rcases hlast with hl | hl <;>
          simp [runResume, closeRun, initRun, hwp, hnone, hfne, dispatchE, workerStep,
            hl, hrange, List.filter_append, Nat.add_comm]
      refine ⟨huv.2.1, huv.2.2, by simpa [hK] using huv.1, ?_⟩
      have hp := hpart (List.range' 1 (full.length + 1))
      have hlr := List.length_range' 1 1 (full.length + 1)
      rw [huv.1, hK]
      omega
  · -- a stored hash differs
    intro j hj finishRes hclean hsome hmis
    by_cases hjf : j < full.length
    · have hwp := writePhase_mismatch seen full j initRun hjf rfl rfl
        (by
          intro i hi
          have hi2 : i < (full ++ trailing.toList).length := by
            rw [List.length_append]; omega
          have h := hclean i hi
          have hget : (full ++ trailing.toList).get ⟨i, by omega⟩ =
              full.get ⟨i, by omega⟩ := by
            simp [List.get_eq_getElem, List.getElem_append_left (by omega : i < full.length)]
          rw [hget] at h
          simpa [initRun] using h)
        (by simpa [initRun] using hsome)
        (by
          intro hjx
          have hget : (full ++ trailing.toList).get ⟨j, hj⟩ = full.get ⟨j, hjx⟩ := by
            simp [List.get_eq_getElem, List.getElem_append_left hjx]
          rw [hget] at hmis
          simpa [initRun] using hmis)
      simp [initRun] at hwp
      by_cases hj1 : j + 1 < full.length
      · have hsomeidx : full[(j + 1 : Nat)]? = some (full.get ⟨j + 1, hj1⟩) := by
          simp [List.get_eq_getElem, List.getElem?_eq_getElem hj1]
        refine ⟨?_, fun _ => ?_, fun hKeq => ?_⟩
        · simp [runResume, closeRun, initRun, hwp, hsomeidx, dispatchE, rSetErr]
        · simp [runResume, closeRun, initRun, hwp, hsomeidx, dispatchE, rSetErr]
        · exfalso
          rw [List.length_append] at hKeq
          omega
      · have hj1e : j + 1 = full.length := by omega
        have hnoneidx : full[(j + 1 : Nat)]? = none :=
          List.getElem?_eq_none (by omega)
        rcases htl : trailing with _ | th
        · subst htl
          refine ⟨?_, fun hlt => ?_, fun _ => ?_⟩
          · rcases finishRes with _ | e <;>
              simp [runResume, closeRun, initRun, hwp, hnoneidx, rSetErr]
          · exfalso
            rw [List.length_append] at hlt
            simp at hlt
            omega
          · rcases finishRes with _ | e <;>
              simp [runResume, closeRun, initRun, hwp, hnoneidx, rSetErr]
        · subst htl
          refine ⟨?_, fun _ => ?_, fun hKeq => ?_⟩
          · simp [runResume, closeRun, initRun, hwp, hnoneidx, dispatchE, rSetErr]
          · simp [runResume, closeRun, initRun, hwp, hnoneidx, dispatchE, rSetErr]
          · exfalso
            rw [List.length_append] at hKeq
            simp at hKeq
            omega
    · -- the trailing chunk mismatches
      rcases htl : trailing with _ | th
      · exfalso
        subst htl
        rw [List.length_append] at hj
        simp at hj
        omega
      · subst htl
        have hjt : j = full.length := by
          rw [List.length_append] at hj
          simp at hj
          omega
        subst hjt
        have hwp := writePhase_clean seen full initRun rfl rfl (by
          intro i hi
          have h := hclean i (by omega)
          have hget : ∀ hx : i < (full ++ (some th).toList).length,
              (full ++ (some th).toList).get ⟨i, hx⟩ = full.get ⟨i, hi⟩ := by
            intro hx
            simp [List.get_eq_getElem, List.getElem_append_left hi]
          rw [hget _] at h
          simpa [initRun] using h)
        simp [initRun] at hwp
        obtain ⟨sha, hsha⟩ := Option.isSome_iff_exists.mp hsome
        have hgetl : (full ++ (some th).toList).get ⟨full.length, hj⟩ = th := by
          simp [List.get_eq_getElem, List.getElem_append_right (Nat.le_refl full.length)]
        rw [hgetl] at hmis
        have hsne : sha ≠ th := fun hEq => hmis (hEq ▸ hsha)
        refine ⟨?_, fun hlt => ?_, fun _ => ?_⟩
        · rcases finishRes with _ | e <;>
            simp [runResume, closeRun, initRun, hwp, hnone, hne, dispatchE, workerStep, hsha, hsne, rSetErr]
        · exfalso
          rw [List.length_append] at hlt
          simp at hlt
        · rcases finishRes with _ | e <;>
            simp [runResume, closeRun, initRun, hwp, hnone, hne, dispatchE, workerStep, hsha, hsne, rSetErr]

/-- C4 counterexample to the claim as stated: a 2-chunk stream resumed
against server parts `{1, 2}` where part 2's stored hash 99 differs
from the replayed chunk's hash 22.  The mismatch is latched and
returned by `Close` — yet `finishLargeFile` *is* invoked, because the
mismatching chunk was the last one delivered and `Close` finds nothing
left to drain before calling finish. -/
theorem c4_finish_called_on_last_chunk_mismatch :
    (runResume seenTampered [11, 22] none none).closeRet = some BErr.resumeMismatch ∧
    (runResume seenTampered [11, 22] none none).finishCalled = true := by decide

/-- C4 witness: resuming a 2-chunk stream against a server that holds
part 1 with the correct hash uploads exactly chunk 2 and finishes. -/
theorem c4_resume_reconciliation_witness :
    (runResume seenPartOne [5, 7] none none).closeRet = none ∧
    (runResume seenPartOne [5, 7] none none).finishCalled = true ∧
    (runResume seenPartOne [5, 7] none none).uploads =
      (List.range' 1 ([5, 7] ++ (none : Option Nat).toList).length).filter
        (fun id => (seenPartOne id).isNone) ∧
    (runResume seenPartOne [5, 7] none none).uploads.length =
      ([5, 7] ++ (none : Option Nat).toList).length -
        ((List.range' 1 ([5, 7] ++ (none : Option Nat).toList).length).filter
          (fun id => (seenPartOne id).isSome)).length :=
  (c4_resume_reconciliation seenPartOne [5, 7] none (by decide)).1 (by decide)

/-! ## C5: per-chunk retry backoff -/

/-- One doubling-with-cap step of the worker's sleep variable
(writer.go:178-182) maps the `k`-th delay to the `k+1`-st. -/
theorem backoffDelay_step (k : Nat) :
    (if backoffDelay k * 2 > 15000 then 15000 else backoffDelay k * 2) =
      backoffDelay (k + 1) := by
  have hp : 15 * 2 ^ (k + 1) = 15 * 2 ^ k * 2 := by ring
  unfold backoffDelay
  rcases le_or_lt (15 * 2 ^ k) 15000 with h | h
  · rw [min_eq_left h]
    by_cases h2 : 15 * 2 ^ k * 2 > 15000
    · rw [if_pos h2, min_eq_right (by omega)]
    · rw [if_neg h2, min_eq_left (by omega)]
      omega
  · rw [min_eq_right (le_of_lt h), if_pos (by omega), min_eq_right (by omega)]

/-- The retry loop of `Writer.thread`, traced: failing `m` times
retryably from retry index `k` and then succeeding produces exactly the
sleep/refresh/re-execute trace, uploads the chunk, and latches no
error. -/
theorem uploadChunkLoop_trace (reupload : Option BErr → Bool) (len : Nat) :
    ∀ (fails : List AttemptOutcome) (k : Nat) (mr : meteredReader)
      (evs : List ThreadEvent) (ok : AttemptOutcome),
      (∀ f ∈ fails, (f.n ≠ len ∨ f.err ≠ none) ∧ reupload f.err = true) →
      ok.n = len → ok.err = none →
      uploadChunkLoop reupload len (fails ++ [ok]) (backoffDelay k) mr evs =
        { events := evs ++ retryTrace k fails.length, result := none, ok := true } := by
  intro fails
  induction fails with
  | nil =>
    intro k mr evs ok _ hn he
    simp [uploadChunkLoop, hn, he, meteredReader.SeekTo, retryTrace]
  | cons f fs ih =>
    intro k mr evs ok hf hn he
    have hf0 := hf f (List.mem_cons_self f fs)
    simp only [List.cons_append, uploadChunkLoop, List.append_eq]
    rw [if_pos hf0.1]
    simp only [hf0.2, if_true]
    rw [backoffDelay_step k]
    rw [ih (k + 1) _ _ ok (fun g hg => hf g (List.mem_cons_of_mem f hg)) hn he]
    simp [retryTrace, meteredReader.SeekTo]

/-- C5: a chunk whose `uploadPart` attempts fail with outcomes the
`reupload` predicate marks retryable (an error, or a short byte count)
is retried after a sleep that starts at 15 ms, doubles each retry and
is capped at 15 s; each retry first obtains a fresh part-upload
endpoint, and each re-execution reads the chunk from offset 0 through
the metered reader's seek, which resets the byte counter. -/
theorem c5_backoff (reupload : Option BErr → Bool) (len : Nat)
    (fails : List AttemptOutcome) (ok : AttemptOutcome) (mr : meteredReader)
    (hfail : ∀ f ∈ fails, (f.n ≠ len ∨ f.err ≠ none) ∧ reupload f.err = true)
    (hn : ok.n = len) (he : ok.err = none) :
    uploadChunkLoop reupload len (fails ++ [ok]) 15 mr [] =
      { events := retryTrace 0 fails.length, result := none, ok := true } ∧
    backoffDelay 0 = 15 ∧
    (∀ i, backoffDelay (i + 1) = min (backoffDelay i * 2) 15000) ∧
    (∀ i, 15 ≤ backoffDelay i ∧ backoffDelay i ≤ 15000) ∧
    (∀ m : meteredReader, (m.SeekTo 0).read = 0) := by
  have hb0 : backoffDelay 0 = 15 := by norm_num [backoffDelay]
  have hmin : ∀ x : Nat, (if x > 15000 then 15000 else x) = min x 15000 := by
    intro x
    rcases le_or_lt x 15000 with h | h
    · rw [if_neg (by omega), min_eq_left h]
    · rw [if_pos h, min_eq_right (le_of_lt h)]
  refine ⟨?_, hb0, ?_, ?_, fun m => rfl⟩
  · have h := uploadChunkLoop_trace reupload len fails 0 mr [] ok hfail hn he
    rw [hb0] at h
    simpa using h
  · intro i
    rw [← backoffDelay_step i, hmin]
  · intro i
    unfold backoffDelay
    constructor
    · exact le_min (Nat.le_mul_of_pos_right 15 (Nat.pos_pow_of_pos i (by norm_num))) (by norm_num)
    · exact min_le_right _ _

/-- C5 witness: one retryable short-write failure followed by success
produces the trace attempt, 15 ms sleep, endpoint refresh, attempt. -/
theorem c5_backoff_witness :
    uploadChunkLoop reuploadOn 10 ([⟨0, some (.other 0)⟩] ++ [⟨10, none⟩]) 15 ⟨3, 10⟩ [] =
      { events := retryTrace 0 [(⟨0, some (.other 0)⟩ : AttemptOutcome)].length,
        result := none, ok := true } :=
  (c5_backoff reuploadOn 10 [⟨0, some (.other 0)⟩] ⟨10, none⟩ ⟨3, 10⟩
    (by decide) rfl rfl).1

/-! ## C6: single-shot retry policy -/

/-- The `redo` loop of `simpleWriteFile`, traced: retryable failures
refresh the endpoint and retry with no sleep; success returns nil. -/
theorem simpleWriteFileLoop_trace (reupload : Option BErr → Bool) :
    ∀ (fails : List BErr) (evs : List ThreadEvent),
      (∀ e ∈ fails, reupload (some e) = true) →
      simpleWriteFileLoop reupload (fails.map some ++ [none]) evs =
        (evs ++ refreshTrace fails.length, none) := by
  intro fails
  induction fails with
  | nil =>
    intro evs _
    simp [simpleWriteFileLoop, refreshTrace]
  | cons f fs ih =>
    intro evs hf
    have hf0 := hf f (List.mem_cons_self f fs)
    simp only [List.map_cons, List.cons_append, simpleWriteFileLoop, List.append_eq,
      hf0, if_true]
    rw [ih _ (fun g hg => hf g (List.mem_cons_of_mem f hg))]
    simp [refreshTrace]

/-- The `redo` loop of `simpleWriteFile` on a terminal non-retryable
error: the error is returned. -/
theorem simpleWriteFileLoop_fatal (reupload : Option BErr → Bool) :
    ∀ (fails : List BErr) (evs : List ThreadEvent) (e : BErr),
      (∀ g ∈ fails, reupload (some g) = true) → reupload (some e) = false →
      (simpleWriteFileLoop reupload (fails.map some ++ [some e]) evs).2 = some e := by
  intro fails
  induction fails with
  | nil =>
    intro evs e _ hfe
    simp [simpleWriteFileLoop, hfe]
  | cons f fs ih =>
    intro evs e hf hfe
    have hf0 := hf f (List.mem_cons_self f fs)
    simp only [List.map_cons, List.cons_append, simpleWriteFileLoop, List.append_eq,
      hf0, if_true]
    exact ih _ e (fun g hg => hf g (List.mem_cons_of_mem f hg)) hfe

/-- A refresh trace holds no sleep event. -/
theorem refreshTrace_no_sleep (m : Nat) :
    (refreshTrace m).countP isSleepEvent = 0 := by
  induction m with
  | zero => rfl
  | succ m ih => simp [refreshTrace, List.countP_cons, isSleepEvent, ih]

/-- C6 (amended): the single-shot upload path retries an error the
`reupload` predicate marks retryable by obtaining a fresh upload
endpoint and re-executing immediately — its loop contains no sleep at
all, unlike the workers' capped exponential backoff — and a
non-retryable error is returned and latched by `Close`. -/
theorem c6_simple_retry (reupload : Option BErr → Bool) (fails : List BErr)
    (hfail : ∀ e ∈ fails, reupload (some e) = true) :
    simpleWriteFileLoop reupload (fails.map some ++ [none]) [] =
      (refreshTrace fails.length, none) ∧
    ((simpleWriteFileLoop reupload (fails.map some ++ [none]) []).1.countP
      isSleepEvent = 0) ∧
    (∀ e : BErr, reupload (some e) = false →
      (simpleWriteFileLoop reupload (fails.map some ++ [some e]) []).2 = some e ∧
      ∀ st : WSt, st.everStarted = true → st.cidx = 0 → st.err = none →
        (Close st (some e) none).ret = some e) := by
  have ht := simpleWriteFileLoop_trace reupload fails [] hfail
  refine ⟨by simpa using ht, ?_, ?_⟩
  · rw [ht]
    simpa using refreshTrace_no_sleep fails.length
  · intro e hfe
    refine ⟨simpleWriteFileLoop_fatal reupload fails [] e hfail hfe, ?_⟩
    intro st hE hc herr
    simp [Close, hE, hc, setErr, herr]

/-- C6 counterexample to the claim as stated: a single retryable
failure followed by success — the retry refreshes the endpoint and
re-executes with zero sleep events, so no delay of at least 15 ms
(or any delay at all) separates the attempts. -/
theorem c6_no_backoff_on_simple_path :
    simpleWriteFileLoop reuploadOn [some (.other 0), none] [] =
      ([.attempt 0, .refreshedEndpoint, .attempt 0], none) ∧
    (simpleWriteFileLoop reuploadOn [some (.other 0), none] []).1.countP
      isSleepEvent = 0 := by decide

/-- C6 witness: two retryable failures then success on the single-shot
path refresh twice and never sleep; a non-retryable error is returned
and latched by a `Close` on a fresh small-file writer state. -/
theorem c6_simple_retry_witness :
    simpleWriteFileLoop reuploadOn ([BErr.other 0, BErr.other 0].map some ++ [none]) [] =
      (refreshTrace [BErr.other 0, BErr.other 0].length, none) :=
  (c6_simple_retry reuploadOn [BErr.other 0, BErr.other 0] (by decide)).1

/-! ## C9 machinery: hex suffix and the `nonBuffer` stream -/

/-- `%x` prints two digits per byte. -/
theorem hexOfBytes_length (bs : List Nat) : (hexOfBytes bs).length = 2 * bs.length := by
  induction bs with
  | nil => rfl
  | cons b t ih =>
    simp only [hexOfBytes, List.flatMap_cons, List.length_append] at ih ⊢
    simp only [List.length_cons, List.length_nil, List.length_cons]
    omega

/-- Every `hexChar` of a nibble is a lowercase hex digit. -/
theorem isLowerHexDigit_hexChar (v : Nat) (hv : v < 16) : isLowerHexDigit (hexChar v) := by
  unfold hexChar isLowerHexDigit
  by_cases h : v < 10
  · rw [if_pos h]
    left
    omega
  · rw [if_neg h]
    right
    omega

/-- The hex encoding of a byte string consists of lowercase hex
digits. -/
theorem hexOfBytes_digits (bs : List Nat) (hb : ∀ b ∈ bs, b < 256) :
    ∀ c ∈ hexOfBytes bs, isLowerHexDigit c := by
  intro c hc
  rw [hexOfBytes, List.mem_flatMap] at hc
  obtain ⟨b, hbmem, hcmem⟩ := hc
  have hblt := hb b hbmem
  have hdiv : b / 16 < 16 := by
    rw [Nat.div_lt_iff_lt_mul (by norm_num)]
    omega
  have hmod : b % 16 < 16 := Nat.mod_lt _ (by norm_num)
  simp only [List.mem_cons, List.not_mem_nil, or_false] at hcmem
  rcases hcmem with rfl | rfl
  · exact isLowerHexDigit_hexChar _ hdiv
  · exact isLowerHexDigit_hexChar _ hmod

/-- Draining a rewound `nonBuffer` (any stale `buf`, any declared
`size`) with requests of `src.length + 40` bytes yields exactly the
source bytes followed by the hex digits of the digest of those same
bytes. -/
theorem readAll_hash_suffix (h : List Nat → List Nat) (src buf0 : List Nat) (sz : Nat)
    (h20 : (h src).length = 20) :
    nonBuffer.readAll h 4
      { src := src, size := sz, pos := 0, acc := [], isEOF := false, buf := buf0 }
      (src.length + 40) = src ++ hexOfBytes (h src) := by
  have hhlen : (hexOfBytes (h src)).length = 40 := by
    have := hexOfBytes_length (h src)
    omega
  have hhex : hexOfBytes (h src) ≠ [] := by
    intro hnil
    rw [hnil] at hhlen
    simp at hhlen
  have hstep : ∀ (fuel : Nat) (nb : nonBuffer) (n : Nat),
      nonBuffer.readAll h (fuel + 1) nb n =
        (if (nonBuffer.Read h nb n).2.1 then []
         else (nonBuffer.Read h nb n).1 ++
           nonBuffer.readAll h fuel (nonBuffer.Read h nb n).2.2 n) := by
    intro fuel nb n
    rfl
  have ht2 : (hexOfBytes (h src)).take (src.length + 40) = hexOfBytes (h src) :=
    List.take_of_length_le (by omega)
  have hd2 : (hexOfBytes (h src)).drop (src.length + 40) = [] :=
    List.drop_eq_nil_of_le (by omega)
  by_cases hsrc : src = []
  · subst hsrc
    have e1 : nonBuffer.Read h
        { src := [], size := sz, pos := 0, acc := [], isEOF := false, buf := buf0 }
        (List.length ([] : List Nat) + 40) =
        ([], false,
          { src := [], size := sz, pos := 0, acc := [], isEOF := true,
            buf := hexOfBytes (h []) }) := by
      simp [nonBuffer.Read]
    rw [hstep, e1]
    have e2 : nonBuffer.Read h
        { src := [], size := sz, pos := 0, acc := [], isEOF := true,
          buf := hexOfBytes (h []) } (List.length ([] : List Nat) + 40) =
        (hexOfBytes (h []), false,
          { src := [], size := sz, pos := 0, acc := [], isEOF := true, buf := [] }) := by
      simp [nonBuffer.Read, hhex, hhlen]
    rw [hstep, e2]
    have e3 : nonBuffer.Read h
        { src := [], size := sz, pos := 0, acc := [], isEOF := true, buf := [] }
        (List.length ([] : List Nat) + 40) =
        ([], true,
          { src := [], size := sz, pos := 0, acc := [], isEOF := true, buf := [] }) := by
      simp [nonBuffer.Read]
    rw [hstep, e3]
    simp
  · have ht1 : src.take (src.length + 40) = src := List.take_of_length_le (by omega)
    have e1 : nonBuffer.Read h
        { src := src, size := sz, pos := 0, acc := [], isEOF := false, buf := buf0 }
        (src.length + 40) =
        (src, false,
          { src := src, size := sz, pos := src.length, acc := src, isEOF := false,
            buf := buf0 }) := by
      simp [nonBuffer.Read, hsrc, ht1]
    rw [hstep, e1]
    have e2 : nonBuffer.Read h
        { src := src, size := sz, pos := src.length, acc := src, isEOF := false,
          buf := buf0 } (src.length + 40) =
        ([], false,
          { src := src, size := sz, pos := src.length, acc := src, isEOF := true,
            buf := hexOfBytes (h src) }) := by
      simp [nonBuffer.Read, List.drop_length]
    rw [hstep, e2]
    have e3 : nonBuffer.Read h
        { src := src, size := sz, pos := src.length, acc := src, isEOF := true,
          buf := hexOfBytes (h src) } (src.length + 40) =
        (hexOfBytes (h src), false,
          { src := src, size := sz, pos := src.length, acc := src, isEOF := true,
            buf := [] }) := by
      simp [nonBuffer.Read, hhex, hhlen]
    rw [hstep, e3]
    have e4 : nonBuffer.Read h
        { src := src, size := sz, pos := src.length, acc := src, isEOF := true,
          buf := [] } (src.length + 40) =
        ([], true,
          { src := src, size := sz, pos := src.length, acc := src, isEOF := true,
            buf := [] }) := by
      simp [nonBuffer.Read]
    rw [hstep, e4]
    simp

/-- C9: the pass-through buffer rejects writes, declares length
`size + 40` and the sentinel hash, streams exactly the source bytes
followed by 40 lowercase hex digits of the digest of those bytes, and
seeking back to 0 resets the hash state and EOF flag so that a full
re-read yields the identical stream. -/
theorem c9_nonBuffer_contract (h : List Nat → List Nat) (src : List Nat)
    (h20 : ∀ s : List Nat, (h s).length = 20)
    (hbyte : ∀ s : List Nat, ∀ b ∈ h s, b < 256) :
    (newNonBuffer src).Len = src.length + 40 ∧
    (newNonBuffer src).Hash = "hex_digits_at_end" ∧
    (∀ p, (newNonBuffer src).WriteB p = (0, some BErr.writeNotSupported)) ∧
    nonBuffer.readAll h 4 (newNonBuffer src) (src.length + 40) =
      src ++ hexOfBytes (h src) ∧
    (hexOfBytes (h src)).length = 40 ∧
    (∀ c ∈ hexOfBytes (h src), isLowerHexDigit c) ∧
    (∀ nb : nonBuffer, nb.src = src →
      nonBuffer.readAll h 4 (nb.SeekTo 0) (src.length + 40) =
        src ++ hexOfBytes (h src)) := by
  refine ⟨rfl, rfl, fun p => rfl, ?_, ?_, hexOfBytes_digits _ (hbyte src), ?_⟩
  · simpa [newNonBuffer] using readAll_hash_suffix h src [] src.length (h20 src)
  · have := hexOfBytes_length (h src)
    rw [h20 src] at this
    omega
  · intro nb hsrc
    have := readAll_hash_suffix h src nb.buf nb.size (h20 src)
    simpa [nonBuffer.SeekTo, hsrc] using this

/-- C9 witness on the two-byte source `[7, 200]` with a concrete
20-byte digest function. -/
theorem c9_nonBuffer_contract_witness :
    nonBuffer.readAll zeroDigest 4 (newNonBuffer [7, 200]) ([7, 200].length + 40) =
      [7, 200] ++ hexOfBytes (zeroDigest [7, 200]) :=
  (c9_nonBuffer_contract zeroDigest [7, 200] (fun s => rfl)
    (fun s b hb => by
      have hb0 : b = 0 := by simpa [zeroDigest] using hb
      omega)).2.2.2.1

/-! ## C7 and C8: `ReadFrom` threshold handling -/

/-- C7 (evaluation at the failing input): with `ChunkSize` left unset,
a 5-byte seekable source is *not* given the pass-through fast path —
`ReadFrom` compares the size against the raw zero field, not against
the documented default `10^8`, and falls into the unimplemented branch
returning `(0, nil)`.  Supplying the default explicitly produces the
claimed single-shot `uploadFile` with declared length `size + 40`, the
`"hex_digits_at_end"` sentinel, and the 40-hex-digit suffix appended
at end of stream. -/
theorem c7_readFrom_default_threshold (h : List Nat → List Nat)
    (h20 : (h [1, 2, 3, 4, 5]).length = 20) :
    ReadFrom h 0 true [1, 2, 3, 4, 5] = RFRes.stub 0 none ∧
    ReadFrom h (initCsize 0) true [1, 2, 3, 4, 5] =
      RFRes.uploaded 45 "hex_digits_at_end"
        ([1, 2, 3, 4, 5] ++ hexOfBytes (h [1, 2, 3, 4, 5])) := by
  constructor
  · rfl
  · have hs := readAll_hash_suffix h [1, 2, 3, 4, 5] [] 5 h20
    simp only [ReadFrom, initCsize, hashReaderStream, newNonBuffer]
    norm_num
    simpa using hs

/-- C7 witness with the concrete digest function. -/
theorem c7_readFrom_default_threshold_witness :
    ReadFrom zeroDigest 0 true [1, 2, 3, 4, 5] = RFRes.stub 0 none ∧
    ReadFrom zeroDigest (initCsize 0) true [1, 2, 3, 4, 5] =
      RFRes.uploaded 45 "hex_digits_at_end"
        ([1, 2, 3, 4, 5] ++ hexOfBytes (zeroDigest [1, 2, 3, 4, 5])) :=
  c7_readFrom_default_threshold zeroDigest rfl

/-- C8 (evaluation at the failing input): a seekable source whose size
reaches the threshold hits the unimplemented large-file branch of
`ReadFrom`, which silently succeeds with `(0, nil)` — no upload, no
error — for both a size exactly at and one above the threshold. -/
theorem c8_readFrom_large_source_silent_success (h : List Nat → List Nat) :
    ReadFrom h 100 true (List.replicate 100 7) = RFRes.stub 0 none ∧
    ReadFrom h 100 true (List.replicate 200 7) = RFRes.stub 0 none := by
  constructor <;> rfl

/-! ## C10: progress map slots -/

/-- Updating an existing key leaves the map's size unchanged. -/
theorem setKey_length_of_mem :
    ∀ (m : List (Nat × Option meteredReader)) (id : Nat) (v : Option meteredReader),
      id ∈ m.map Prod.fst → (setKey m id v).length = m.length := by
  intro m
  induction m with
  | nil =>
    intro id v hmem
    simp at hmem
  | cons p t ih =>
    intro id v hmem
    obtain ⟨k, w⟩ := p
    by_cases hk : k = id
    · simp [setKey, hk]
    · have hmem2 : id ∈ t.map Prod.fst := by
        rcases List.mem_cons.mp hmem with hk2 | hk2
        · exact absurd hk2.symm hk
        · exact hk2
      simp [setKey, hk, ih id v hmem2]

/-- `lookupPtr` on a cons cell. -/
theorem lookupPtr_cons (k : Nat) (w : Option meteredReader)
    (rest : List (Nat × Option meteredReader)) (id : Nat) :
    lookupPtr ((k, w) :: rest) id = if k = id then w else lookupPtr rest id := by
  by_cases hk : k = id <;> simp [lookupPtr, List.find?_cons, hk]

/-- A key just written reads back as the written value (Go's
`smap[id]`). -/
theorem lookupPtr_setKey :
    ∀ (m : List (Nat × Option meteredReader)) (id : Nat) (v : Option meteredReader),
      lookupPtr (setKey m id v) id = v := by
  intro m
  induction m with
  | nil =>
    intro id v
    simp [setKey, lookupPtr, List.find?_cons]
  | cons p t ih =>
    intro id v
    obtain ⟨k, w⟩ := p
    by_cases hk : k = id
    · simp [setKey, hk, lookupPtr_cons]
    · simp [setKey, hk, lookupPtr_cons, ih id v]

/-- C10: `completeChunk` stores nil rather than deleting the entry, so
`status()` keeps one slot per chunk ever registered (the array length
equals the map size, which completion preserves), and a completed
chunk's slot reads exactly 1, because `done()` on a nil metered reader
returns 1. -/
theorem c10_complete_chunk_progress (m : List (Nat × Option meteredReader)) (id : Nat)
    (hkeys : m.map Prod.fst = List.range' 1 m.length)
    (hid : id ∈ m.map Prod.fst) :
    (completeChunk m id).length = m.length ∧
    (statusW (completeChunk m id)).Progress.length = m.length ∧
    (statusW (completeChunk m id)).Progress[id - 1]? = some 1 ∧
    meteredReader.doneFrac none = 1 := by
  have hlen : (completeChunk m id).length = m.length :=
    setKey_length_of_mem m id none hid
  have hrange : 1 ≤ id ∧ id < 1 + m.length := by
    rw [hkeys] at hid
    exact List.mem_range'_1.mp hid
  refine ⟨hlen, by simp [statusW, hlen], ?_, rfl⟩
  have hl : lookupPtr (completeChunk m id) id = none := lookupPtr_setKey m id none
  have hi1 : id - 1 < m.length := by omega
  have hi2 : id - 1 + 1 = id := by omega
  simp only [statusW, hlen, List.getElem?_map, List.getElem?_range hi1, Option.map_some']
  rw [hi2, hl]
  rfl

/-- C10 witness on a two-entry progress map, completing chunk 2. -/
theorem c10_complete_chunk_progress_witness :
    (completeChunk [(1, some ⟨5, 10⟩), (2, some ⟨0, 10⟩)] 2).length = 2 ∧
    (statusW (completeChunk [(1, some ⟨5, 10⟩), (2, some ⟨0, 10⟩)] 2)).Progress.length = 2 ∧
    (statusW (completeChunk [(1, some ⟨5, 10⟩), (2, some ⟨0, 10⟩)] 2)).Progress[2 - 1]? =
      some 1 ∧
    meteredReader.doneFrac none = 1 :=
  c10_complete_chunk_progress [(1, some ⟨5, 10⟩), (2, some ⟨0, 10⟩)] 2
    (by decide) (by decide)

end Blazer
